import Mathlib

/-!
Verification of the `CyclicCode` class from `cyclic_codes.h` (Strategy A,
minimum-weight syndrome decoding) and `cyclic_codes_2.h` (Strategy B,
burst-error syndrome decoding).

The two headers share their constructor, `encode_word`, `is_code_word`,
`get_transpose`, `find_power`, `hamming_distance` and the cyclic-shift
construction verbatim, so those are embedded once.  Machine `uint`s are
modelled as `Nat`; the one place where 32-bit wrap-around is semantically
load-bearing — the descending burst-length loop of Strategy B, which stops
when its counter wraps past zero to `UINT_MAX` — is modelled with explicit
arithmetic modulo `2^32`.
-/

namespace CyclicCodes

/-- The value of `UINT_MAX` on the 32-bit `uint` used by the source. -/
def UINT_MAX : Nat := 4294967295

/-- `find_power base exponent` — the repeated-multiplication power loop of the
source (`find_power`), which computes `base ^ exponent`. -/
def find_power (base exponent : Nat) : Nat := base ^ exponent

/-- XOR of a list of words, the running `^=` accumulator idiom of the source. -/
def xorList (l : List Nat) : Nat := l.foldl (fun a x => a ^^^ x) 0

/-- The loop `for i < L { if ((word >> i) & 1) == 1 push i }` collecting the
set-bit positions of `word` below `L` in increasing order
(`bit_place_values` in `decode_word` / `get_cyclic_shifts` / burst analysis). -/
def bit_place_values (word L : Nat) : List Nat :=
  (List.range L).filter (fun i => word.testBit i)

/-- The loop `cyclic_shift += find_power(2, place_value)` rebuilding a word
from a list of bit positions. -/
def word_of_places (pvs : List Nat) : Nat :=
  pvs.foldl (fun acc p => acc + find_power 2 p) 0

/-- One pass of the place-value update `pv := (pv + 1) % L` over the list. -/
def shift_places (L : Nat) (pvs : List Nat) : List Nat :=
  pvs.map (fun p => (p + 1) % L)

/-- The body of the shift loop in `get_cyclic_shifts`: `m` remaining
iterations, each advancing the place values by one and pushing the rebuilt
word. -/
def shifts_loop (L : Nat) : Nat → List Nat → List Nat
  | 0, _ => []
  | Nat.succ m, pvs =>
    let pvs2 := shift_places L pvs
    word_of_places pvs2 :: shifts_loop L m pvs2

/-- `get_cyclic_shifts(word, word_length)`: the original word followed by the
`word_length - 1` successive cyclic shifts built from mutated place values.
(`cyclic_codes_2.h`; `decode_word` of `cyclic_codes.h` contains the identical
loop inline.) -/
def get_cyclic_shifts (word word_length : Nat) : List Nat :=
  word :: shifts_loop word_length (word_length - 1) (bit_place_values word word_length)

/-- The inner dot-product loop of `is_code_word`: over `row < code_length`,
`dot_product ^= ((word >> row) & 1) & ((h >> row) & 1)`. -/
def dot_product (code_length word h : Nat) : Nat :=
  (List.range code_length).foldl
    (fun dp row => dp ^^^ (((word >>> row) &&& 1) &&& ((h >>> row) &&& 1))) 0

/-- `is_code_word(word)`: every parity-check row has even overlap with the
word (the product vector is zero). -/
def is_code_word (parity_check : List Nat) (code_length word : Nat) : Bool :=
  (parity_check.map (fun h => dot_product code_length word h)).all (fun dp => dp == 0)

/-- `get_transpose(matrix, code_length)`: row `new_row` of the transpose
accumulates `2 ^ (matrix.size - 1 - old_row)` for every `old_row` whose bit
`code_length - 1 - new_row` is set (the `+=` loop of the source, written
per output row). -/
def get_transpose (matrix : List Nat) (code_length : Nat) : List Nat :=
  (List.range code_length).map (fun new_row =>
    (List.range matrix.length).foldl (fun acc old_row =>
      if (matrix.getD old_row 0).testBit (code_length - 1 - new_row) then
        acc + find_power 2 (matrix.length - 1 - old_row)
      else acc) 0)

/-- The row-selection XOR loop shared by `encode_word` and the syndrome
computation: bit `place_value` of `word` selects row
`rows.size - 1 - place_value`. -/
def row_xor_select (rows : List Nat) (word : Nat) : Nat :=
  (List.range rows.length).foldl (fun acc place_value =>
    if word.testBit place_value then
      acc ^^^ rows.getD (rows.length - 1 - place_value) 0
    else acc) 0

/-- `encode_word(word)`: XOR of the generator rows selected by the bits of the
message, with bit `i` selecting row `generator.size() - 1 - i`.  The body is
identical in both headers. -/
def encode_word (generator : List Nat) (word : Nat) : Nat :=
  row_xor_select generator word

/-- `hamming_distance(first_word, second_word)`: number of set bits of the XOR
within `code_length` positions. -/
def hamming_distance (code_length first_word second_word : Nat) : Nat :=
  (List.range code_length).foldl
    (fun acc place_value => acc + (((first_word ^^^ second_word) >>> place_value) &&& 1)) 0

/-- The constructor loop collecting every `i < 2 ^ code_length` with
`is_code_word(i)`, in increasing order. -/
def code_words (parity_check : List Nat) (code_length : Nat) : List Nat :=
  (List.range (find_power 2 code_length)).filter
    (fun i => is_code_word parity_check code_length i)

/-- The constructor loop deriving the minimum distance: the least Hamming
weight over the nonzero code words, starting from `UINT_MAX`. -/
def min_distance (parity_check : List Nat) (code_length : Nat) : Nat :=
  (code_words parity_check code_length).foldl (fun distance word =>
    if 0 < word then
      if hamming_distance code_length 0 word < distance then
        hamming_distance code_length 0 word
      else distance
    else distance) UINT_MAX

/-- `nearest_neighbor(received_word)` (`cyclic_codes_2.h`; inlined as the
fallback branch of `decode_word` in `cyclic_codes.h`): form the coset
`received ^ c` over the code words, keep the first element of strictly least
Hamming weight (running minimum initialised to `UINT_MAX`), and subtract it
from the received word. -/
def nearest_neighbor (code_words_list : List Nat) (code_length received_word : Nat) : Nat :=
  let received_word_coset := code_words_list.map (fun word => received_word ^^^ word)
  let final := received_word_coset.foldl (fun st coset_word =>
    let this_hw := hamming_distance code_length 0 coset_word
    if this_hw < st.2 then (coset_word, this_hw) else st)
    (received_word_coset.headD 0, UINT_MAX)
  received_word ^^^ final.1

/-- `decode_word` of `cyclic_codes.h` (Strategy A): syndromes of all cyclic
shifts in shift order, first syndrome of weight at most
`(min_distance - 1) / 2`; on a hit the syndrome is left-shifted by
`code_length - parity_check.size()` and its place values advanced by
`code_length - which_syndrome` modulo `code_length` before being XORed into
the received word; otherwise nearest-neighbor decoding. -/
def decode_word_A (parity_check : List Nat) (code_length received_word : Nat) : Nat :=
  let received_cyclic_shifts := get_cyclic_shifts received_word code_length
  let parity_transpose := get_transpose parity_check code_length
  let syndromes := received_cyclic_shifts.map (fun s => row_xor_select parity_transpose s)
  let bound := (min_distance parity_check code_length - 1) / 2
  match syndromes.findIdx? (fun s => decide (hamming_distance code_length 0 s ≤ bound)) with
  | none => nearest_neighbor (code_words parity_check code_length) code_length received_word
  | some which_syndrome =>
    let light_syndrome := (syndromes.getD which_syndrome 0) <<< (code_length - parity_check.length)
    let shift_amount := code_length - which_syndrome
    let shifted_places := (bit_place_values light_syndrome code_length).map
      (fun p => (p + shift_amount) % code_length)
    received_word ^^^ word_of_places shifted_places

/-- `get_syndromes(received_word)` (`cyclic_codes_2.h`): the cyclic shifts are
reordered — index 0 keeps the received word, then the shifts are pushed from
the back (`for i = size-1; i > 0; i--`) — before each is turned into a
syndrome through the parity-check transpose. -/
def get_syndromes (parity_check : List Nat) (code_length received_word : Nat) : List Nat :=
  let cyclic_shifts := get_cyclic_shifts received_word code_length
  let sz := cyclic_shifts.length
  let received_cyclic_shifts :=
    cyclic_shifts.headD 0 :: (List.range (sz - 1)).map (fun j => cyclic_shifts.getD (sz - 1 - j) 0)
  let parity_transpose := get_transpose parity_check code_length
  received_cyclic_shifts.map (fun s => row_xor_select parity_transpose s)

/-- `get_burst_length(syndrome, syndrome_length)`: minimum, over the cyclic
shifts of the syndrome, of `largest place value - smallest place value + 1`;
any all-zero shift resets the running value (initially `UINT_MAX`) to 0. -/
def get_burst_length (syndrome syndrome_length : Nat) : Nat :=
  (get_cyclic_shifts syndrome syndrome_length).foldl (fun burst_length shift =>
    let pvs := bit_place_values shift syndrome_length
    match pvs with
    | [] => 0
    | p :: rest =>
      let largest_pv := (p :: rest).getLastD 0
      let smallest_pv := p
      let this_burst_length := largest_pv - smallest_pv + 1
      if this_burst_length < burst_length then this_burst_length else burst_length)
    UINT_MAX

/-- `max_burst_length`, fixed to 3 by the constructor of `cyclic_codes_2.h`. -/
def max_burst_length : Nat := 3

/-- State of the burst-length search of `decode_word` (`cyclic_codes_2.h`):
`found_syndrome`, `light_syndrome`, `light_syndrome_pos`. -/
structure BSearchState where
  found : Bool
  light : Nat
  pos : Nat
deriving DecidableEq

/-- The inner `while (!found_syndrome && which_syndrome < size)` scan at one
desired burst length: if nothing was found yet, the first syndrome whose burst
length equals `desired` (if any) is recorded. -/
def inner_scan (bursts syndromes : List Nat) (desired : Nat) (st : BSearchState) : BSearchState :=
  if st.found then st
  else
    match bursts.findIdx? (fun b => b == desired) with
    | some i => ⟨true, syndromes.getD i 0, i⟩
    | none => st

/-- The literal outer loop `while (desired_burst_length != UINT_MAX)` of
`decode_word` (`cyclic_codes_2.h`), with the unsigned decrement
`desired_burst_length--` modelled as addition of `UINT_MAX` modulo `2^32`,
and an explicit fuel argument counting guard evaluations. -/
def outer_loop (bursts syndromes : List Nat) : Nat → Nat → BSearchState → Option BSearchState
  | 0, _, _ => none
  | Nat.succ fuel, desired, st =>
    if desired = UINT_MAX then some st
    else outer_loop bursts syndromes fuel ((desired + UINT_MAX) % 4294967296)
      (inner_scan bursts syndromes desired st)

/-- `wrap_rotr_step`: one iteration of the realignment loop of
`decode_word` (`cyclic_codes_2.h`) — shift right one bit, re-inserting a
dropped low bit at position `code_length - 1`. -/
def wrap_rotr_step (code_length x : Nat) : Nat :=
  if x &&& 1 = 1 then (x >>> 1) + find_power 2 (code_length - 1) else x >>> 1

/-- The full realignment loop `for i = 1..shift_amount`, iterating
`wrap_rotr_step`. -/
def wrap_rotr (code_length : Nat) : Nat → Nat → Nat
  | x, 0 => x
  | x, Nat.succ a => wrap_rotr code_length (wrap_rotr_step code_length x) a

/-- `decode_word` of `cyclic_codes_2.h` (Strategy B).  The success flag is the
source's `found_syndrome` (§7 of the spec: decode failure returns the received
word plus an explicit failure indicator). -/
def decode_word_B (parity_check : List Nat) (code_length received_word : Nat) : Nat × Bool :=
  let syndromes := get_syndromes parity_check code_length received_word
  let syndrome_burst_lengths := syndromes.map (fun s => get_burst_length s parity_check.length)
  let st := (outer_loop syndrome_burst_lengths syndromes (max_burst_length + 2)
    max_burst_length ⟨false, 0, 0⟩).getD ⟨false, 0, 0⟩
  if st.found then
    let light_syndrome := st.light <<< (code_length - parity_check.length)
    let shift_amount := code_length - st.pos
    let shifted_syndrome := wrap_rotr code_length light_syndrome shift_amount
    (received_word ^^^ shifted_syndrome, true)
  else
    (received_word, false)

/-- Specification-side Hamming weight: the number of set bits below `n`. -/
def weight (n w : Nat) : Nat := (List.range n).countP (fun p => w.testBit p)

/-- Specification-side left cyclic rotation within an `n`-bit field: every set
bit `p < n` of `x` is moved to position `(p + a) % n` (the spec's "bit p moved
to (p+1) mod n", iterated `a` times, i.e. multiplication by `x ^ a` in
`GF(2)[x]/(x^n - 1)`). -/
def rotl_spec (n x a : Nat) : Nat :=
  (((List.range n).filter (fun p => x.testBit p)).map (fun p => 2 ^ ((p + a) % n))).sum

/-- Specification-side right cyclic rotation by `a ≤ n` positions within an
`n`-bit field, wrapping through the top bit: the same as a left rotation by
`(n - a) % n`. -/
def rotr_spec (n x a : Nat) : Nat := rotl_spec n x ((n - a) % n)

/-! ### Fold normal forms -/

theorem foldl_xor_eq (l : List Nat) : ∀ a : Nat,
    l.foldl (fun x y => x ^^^ y) a = a ^^^ xorList l := by
  induction l with
  | nil => intro a; simp [xorList]
  | cons x t ih =>
    intro a
    have h2 : xorList (x :: t) = x ^^^ xorList t := by
      simp only [xorList, List.foldl_cons]
      rw [Nat.zero_xor]
      exact ih x
    simp only [List.foldl_cons]
    rw [ih (a ^^^ x), h2, Nat.xor_assoc]

theorem xorList_cons (x : Nat) (t : List Nat) : xorList (x :: t) = x ^^^ xorList t := by
  simp only [xorList, List.foldl_cons]
  rw [Nat.zero_xor]
  exact foldl_xor_eq t x

theorem foldl_cond_xor {α : Type} (p : α → Bool) (f : α → Nat) :
    ∀ (l : List α) (a : Nat),
    l.foldl (fun acc i => if p i then acc ^^^ f i else acc) a =
      a ^^^ xorList ((l.filter p).map f) := by
  intro l
  induction l with
  | nil => intro a; simp [xorList]
  | cons x t ih =>
    intro a
    by_cases hp : p x
    · rw [List.foldl_cons, if_pos hp, ih, List.filter_cons_of_pos hp, List.map_cons,
        xorList_cons, Nat.xor_assoc]
    · rw [List.foldl_cons, if_neg hp, ih, List.filter_cons_of_neg hp]

theorem foldl_cond_add {α : Type} (p : α → Bool) (f : α → Nat) :
    ∀ (l : List α) (a : Nat),
    l.foldl (fun acc i => if p i then acc + f i else acc) a =
      a + ((l.filter p).map f).sum := by
  intro l
  induction l with
  | nil => intro a; simp
  | cons x t ih =>
    intro a
    by_cases hp : p x
    · rw [List.foldl_cons, if_pos hp, ih, List.filter_cons_of_pos hp, List.map_cons,
        List.sum_cons]
      omega
    · rw [List.foldl_cons, if_neg hp, ih, List.filter_cons_of_neg hp]

theorem foldl_add_map {α : Type} (g : α → Nat) :
    ∀ (l : List α) (a : Nat),
    l.foldl (fun acc x => acc + g x) a = a + (l.map g).sum := by
  intro l
  induction l with
  | nil => intro a; simp
  | cons x t ih =>
    intro a
    simp only [List.foldl_cons, ih, List.map_cons, List.sum_cons]
    omega

theorem foldl_count {α : Type} (p : α → Bool) :
    ∀ (l : List α) (a : Nat),
    l.foldl (fun acc x => acc + if p x then 1 else 0) a = a + l.countP p := by
  intro l
  induction l with
  | nil => intro a; simp
  | cons x t ih =>
    intro a
    simp only [List.foldl_cons, ih, List.countP_cons]
    by_cases hp : p x <;> simp [hp] <;> omega

theorem word_of_places_eq (l : List Nat) :
    word_of_places l = (l.map (fun p => 2 ^ p)).sum := by
  simpa [word_of_places, find_power] using foldl_add_map (fun p : Nat => 2 ^ p) l 0

/-! ### Sums of distinct powers of two -/

theorem two_pow_add_testBit {N s : Nat} (hs : s < 2 ^ N) (q : Nat) :
    (2 ^ N + s).testBit q = (decide (q = N) || s.testBit q) := by
  rcases Nat.lt_trichotomy q N with hq | hq | hq
  · have hsplit : (2 : Nat) ^ N = 2 ^ q * 2 ^ (N - q) := by
      rw [← pow_add]
      congr 1
      omega
    have hdiv : (2 ^ N + s) / 2 ^ q = 2 ^ (N - q) + s / 2 ^ q := by
      rw [hsplit, Nat.mul_add_div (Nat.pos_pow_of_pos q (by norm_num))]
    have heven : (2 : Nat) ^ (N - q) = 2 * 2 ^ (N - q - 1) := by
      calc (2 : Nat) ^ (N - q) = 2 ^ (1 + (N - q - 1)) := by congr 1; omega
      _ = 2 * 2 ^ (N - q - 1) := by rw [pow_add, pow_one]
    rw [Nat.testBit_to_div_mod, Nat.testBit_to_div_mod, hdiv, heven,
      Nat.mul_add_mod]
    simp [show q ≠ N by omega]
  · subst hq
    have hdiv : (2 ^ q + s) / 2 ^ q = 1 + s / 2 ^ q := by
      conv_lhs => rw [show (2:Nat) ^ q + s = 2 ^ q * 1 + s by ring]
      rw [Nat.mul_add_div (Nat.pos_pow_of_pos q (by norm_num))]
    rw [Nat.testBit_to_div_mod, hdiv, Nat.div_eq_of_lt hs]
    simp
  · have h1 : 2 ^ N + s < 2 ^ q := by
      calc 2 ^ N + s < 2 ^ N + 2 ^ N := by omega
      _ = 2 ^ (N + 1) := by rw [pow_succ]; ring
      _ ≤ 2 ^ q := Nat.pow_le_pow_right (by norm_num) (by omega)
    rw [Nat.testBit_lt_two_pow h1, Nat.testBit_lt_two_pow (lt_trans hs (by
      exact Nat.pow_lt_pow_right (by norm_num) hq))]
    simp [show q ≠ N by omega]

theorem sum_two_pow_lt : ∀ (N : Nat) (l : List Nat), l.Nodup → (∀ p ∈ l, p < N) →
    (l.map (fun p => 2 ^ p)).sum < 2 ^ N := by
  intro N
  induction N with
  | zero =>
    intro l _ hlt
    have : l = [] := by
      cases l with
      | nil => rfl
      | cons x t => exact absurd (hlt x (by simp)) (by omega)
    simp [this]
  | succ N ih =>
    intro l hnd hlt
    by_cases hN : N ∈ l
    · have hperm : l.Perm (N :: l.erase N) := List.perm_cons_erase hN
      have hsum : (l.map (fun p => 2 ^ p)).sum = ((N :: l.erase N).map (fun p => 2 ^ p)).sum :=
        (hperm.map (fun p => 2 ^ p)).sum_eq
      have herase : ((l.erase N).map (fun p => 2 ^ p)).sum < 2 ^ N := by
        refine ih (l.erase N) (hnd.erase N) ?_
        intro p hp
        have := (hnd.mem_erase_iff).mp hp
        have := hlt p this.2
        omega
      rw [hsum]
      simp only [List.map_cons, List.sum_cons]
      have : (2:Nat) ^ (N + 1) = 2 ^ N + 2 ^ N := by rw [pow_succ]; ring
      omega
    · have : (l.map (fun p => 2 ^ p)).sum < 2 ^ N := by
        refine ih l hnd ?_
        intro p hp
        have := hlt p hp
        have : p ≠ N := fun h => hN (h ▸ hp)
        omega
      have h2 : (2:Nat) ^ N < 2 ^ (N + 1) := by
        rw [pow_succ]; omega
      omega

theorem sum_two_pow_testBit : ∀ (N : Nat) (l : List Nat), l.Nodup → (∀ p ∈ l, p < N) →
    ∀ q, ((l.map (fun p => 2 ^ p)).sum).testBit q = decide (q ∈ l) := by
  intro N
  induction N with
  | zero =>
    intro l _ hlt q
    have : l = [] := by
      cases l with
      | nil => rfl
      | cons x t => exact absurd (hlt x (by simp)) (by omega)
    simp [this]
  | succ N ih =>
    intro l hnd hlt q
    by_cases hN : N ∈ l
    · have hperm : l.Perm (N :: l.erase N) := List.perm_cons_erase hN
      have hsum : (l.map (fun p => 2 ^ p)).sum = ((N :: l.erase N).map (fun p => 2 ^ p)).sum :=
        (hperm.map (fun p => 2 ^ p)).sum_eq
      have hend : (l.erase N).Nodup := hnd.erase N
      have hebound : ∀ p ∈ l.erase N, p < N := by
        intro p hp
        have := (hnd.mem_erase_iff).mp hp
        have := hlt p this.2
        have : p ≠ N := ((hnd.mem_erase_iff).mp hp).1
        omega
      have herase_lt : ((l.erase N).map (fun p => 2 ^ p)).sum < 2 ^ N :=
        sum_two_pow_lt N (l.erase N) hend hebound
      rw [hsum]
      simp only [List.map_cons, List.sum_cons]
      rw [two_pow_add_testBit herase_lt q, ih (l.erase N) hend hebound q]
      have hiff : q ∈ l ↔ q = N ∨ q ∈ l.erase N := by
        rw [hnd.mem_erase_iff]
        constructor
        · intro h
          by_cases hqe : q = N
          · exact Or.inl hqe
          · exact Or.inr ⟨hqe, h⟩
        · rintro (rfl | ⟨_, h⟩)
          · exact hN
          · exact h
      simp [hiff]
    · have hbound : ∀ p ∈ l, p < N := by
        intro p hp
        have := hlt p hp
        have : p ≠ N := fun h => hN (h ▸ hp)
        omega
      exact ih l hnd hbound q

/-! ### Bit place values and the specification-side rotation -/

theorem bit_place_values_nodup (w L : Nat) : (bit_place_values w L).Nodup :=
  (List.nodup_range L).filter _

theorem mem_bit_place_values {w L p : Nat} :
    p ∈ bit_place_values w L ↔ p < L ∧ w.testBit p = true := by
  simp [bit_place_values, List.mem_filter, List.mem_range]

theorem bit_place_values_zero (L : Nat) : bit_place_values 0 L = [] := by
  simp [bit_place_values]

/-- Helper congruence for modular addition. -/
theorem add_mod_mod (s a n : Nat) : (s + a % n) % n = (s + a) % n := by
  conv_lhs => rw [Nat.add_mod]
  conv_rhs => rw [Nat.add_mod]
  rw [Nat.mod_mod_of_dvd a (dvd_refl n)]

theorem rot_places_nodup (n x a : Nat) :
    ((bit_place_values x n).map (fun p => (p + a) % n)).Nodup := by
  refine List.Nodup.map_on ?_ (bit_place_values_nodup x n)
  intro p hp q hq heq
  have hp1 : p < n := (mem_bit_place_values.mp hp).1
  have hq1 : q < n := (mem_bit_place_values.mp hq).1
  have hme : p ≡ q [MOD n] :=
    Nat.ModEq.add_right_cancel (Nat.ModEq.refl a) heq
  have : p % n = q % n := hme
  rwa [Nat.mod_eq_of_lt hp1, Nat.mod_eq_of_lt hq1] at this

theorem rot_places_lt (n x a : Nat) :
    ∀ q ∈ (bit_place_values x n).map (fun p => (p + a) % n), q < n := by
  intro q hq
  rcases List.mem_map.mp hq with ⟨p, hp, rfl⟩
  have hp1 : p < n := (mem_bit_place_values.mp hp).1
  exact Nat.mod_lt _ (by omega)

theorem rotl_spec_eq_word (n x a : Nat) :
    rotl_spec n x a = word_of_places ((bit_place_values x n).map (fun p => (p + a) % n)) := by
  rw [word_of_places_eq, List.map_map]
  rfl

theorem rotl_spec_testBit (n x a q : Nat) :
    (rotl_spec n x a).testBit q =
      decide (q ∈ (bit_place_values x n).map (fun p => (p + a) % n)) := by
  have h := sum_two_pow_testBit n ((bit_place_values x n).map (fun p => (p + a) % n))
    (rot_places_nodup n x a) (rot_places_lt n x a) q
  rw [rotl_spec_eq_word, word_of_places_eq]
  exact h

theorem rotl_spec_mem_iff (n x a q : Nat) :
    q ∈ (bit_place_values x n).map (fun p => (p + a) % n) ↔
      ∃ p, p < n ∧ x.testBit p = true ∧ (p + a) % n = q := by
  simp only [List.mem_map, mem_bit_place_values]
  constructor
  · rintro ⟨p, ⟨h1, h2⟩, h3⟩
    exact ⟨p, h1, h2, h3⟩
  · rintro ⟨p, h1, h2, h3⟩
    exact ⟨p, ⟨h1, h2⟩, h3⟩

theorem rotl_spec_lt (n x a : Nat) : rotl_spec n x a < 2 ^ n := by
  rw [rotl_spec_eq_word, word_of_places_eq]
  exact sum_two_pow_lt n _ (rot_places_nodup n x a) (rot_places_lt n x a)

theorem rotl_spec_testBit_high {n q : Nat} (x a : Nat) (hq : n ≤ q) :
    (rotl_spec n x a).testBit q = false :=
  Nat.testBit_lt_two_pow (lt_of_lt_of_le (rotl_spec_lt n x a)
    (Nat.pow_le_pow_right (by norm_num) hq))

theorem rotl_spec_zero {n x : Nat} (hx : x < 2 ^ n) : rotl_spec n x 0 = x := by
  apply Nat.eq_of_testBit_eq
  intro q
  rw [rotl_spec_testBit]
  by_cases hq : q < n
  · rcases hb : x.testBit q
    · simp only [decide_eq_false_iff_not, rotl_spec_mem_iff]
      rintro ⟨p, hp1, hp2, hp3⟩
      rw [Nat.add_zero, Nat.mod_eq_of_lt hp1] at hp3
      rw [hp3] at hp2
      rw [hp2] at hb
      exact Bool.false_ne_true hb.symm
    · simp only [decide_eq_true_eq, rotl_spec_mem_iff]
      exact ⟨q, hq, hb, by rw [Nat.add_zero, Nat.mod_eq_of_lt hq]⟩
  · rw [Nat.testBit_lt_two_pow (lt_of_lt_of_le hx
      (Nat.pow_le_pow_right (by norm_num) (by omega)))]
    simp only [decide_eq_false_iff_not, rotl_spec_mem_iff]
    rintro ⟨p, hp1, _, hp3⟩
    have := Nat.mod_lt (p + 0) (show 0 < n by omega)
    omega

theorem rotl_spec_mod (n x a : Nat) : rotl_spec n x a = rotl_spec n x (a % n) := by
  unfold rotl_spec
  congr 1
  apply List.map_congr_left
  intro p _
  congr 1
  rw [add_mod_mod]

theorem rotl_spec_comp (n x a b : Nat) :
    rotl_spec n (rotl_spec n x a) b = rotl_spec n x ((a + b) % n) := by
  apply Nat.eq_of_testBit_eq
  intro q
  rw [rotl_spec_testBit, rotl_spec_testBit, decide_eq_decide]
  rw [rotl_spec_mem_iff, rotl_spec_mem_iff]
  constructor
  · rintro ⟨p, hp1, hp2, hp3⟩
    rw [rotl_spec_testBit, decide_eq_true_eq, rotl_spec_mem_iff] at hp2
    rcases hp2 with ⟨s, hs1, hs2, hs3⟩
    refine ⟨s, hs1, hs2, ?_⟩
    rw [add_mod_mod]
    rw [← hp3, ← hs3, Nat.mod_add_mod]
    congr 1
    omega
  · rintro ⟨s, hs1, hs2, hs3⟩
    have hn : 0 < n := by omega
    refine ⟨(s + a) % n, Nat.mod_lt _ hn, ?_, ?_⟩
    · rw [rotl_spec_testBit, decide_eq_true_eq, rotl_spec_mem_iff]
      exact ⟨s, hs1, hs2, rfl⟩
    · rw [Nat.mod_add_mod, ← hs3, add_mod_mod]
      congr 1
      omega

/-! ### Cyclic shift list -/

theorem shifts_loop_eq (L : Nat) : ∀ (m : Nat) (pvs : List Nat),
    shifts_loop L m pvs =
      (List.range m).map (fun t => word_of_places (pvs.map (fun p => (p + (t + 1)) % L))) := by
  intro m
  induction m with
  | zero => intro pvs; simp [shifts_loop]
  | succ m ih =>
    intro pvs
    rw [shifts_loop, ih (shift_places L pvs), List.range_succ_eq_map]
    simp only [List.map_cons, List.map_map]
    congr 1
    apply List.map_congr_left
    intro t _
    simp only [Function.comp_apply]
    congr 1
    rw [shift_places, List.map_map]
    apply List.map_congr_left
    intro p _
    simp only [Function.comp_apply]
    rw [Nat.mod_add_mod]
    congr 1
    omega

theorem get_cyclic_shifts_eq {n : Nat} (hn : 1 ≤ n) (x : Nat) :
    get_cyclic_shifts x n = x :: (List.range (n - 1)).map (fun t => rotl_spec n x (t + 1)) := by
  unfold get_cyclic_shifts
  rw [shifts_loop_eq]
  congr 1
  apply List.map_congr_left
  intro t _
  exact (rotl_spec_eq_word n x (t + 1)).symm

theorem get_cyclic_shifts_length {n : Nat} (hn : 1 ≤ n) (x : Nat) :
    (get_cyclic_shifts x n).length = n := by
  rw [get_cyclic_shifts_eq hn x]
  simp
  omega

/-! ### The wrap-around right-rotation loop is a cyclic rotation -/

theorem and_one_eq_one_iff (x : Nat) : (x &&& 1 = 1) ↔ x.testBit 0 = true := by
  rw [Nat.and_one_is_mod, Nat.testBit_to_div_mod]
  simp

theorem rot_sub_one_mem_iff {n : Nat} (hn : 1 ≤ n) (x q : Nat) :
    (q ∈ (bit_place_values x n).map (fun p => (p + (n - 1)) % n)) ↔
      ((q = n - 1 ∧ x.testBit 0 = true) ∨ (q + 1 < n ∧ x.testBit (q + 1) = true)) := by
  rw [rotl_spec_mem_iff]
  constructor
  · rintro ⟨p, hp1, hp2, hp3⟩
    rcases Nat.eq_zero_or_pos p with rfl | hppos
    · left
      refine ⟨?_, hp2⟩
      rw [← hp3, Nat.zero_add, Nat.mod_eq_of_lt (by omega)]
    · right
      have hval : (p + (n - 1)) % n = p - 1 := by
        have h1 : p + (n - 1) = (p - 1) + n := by omega
        rw [h1, Nat.add_mod_right, Nat.mod_eq_of_lt (by omega)]
      rw [hval] at hp3
      have hpq : p = q + 1 := by omega
      subst hpq
      exact ⟨hp1, hp2⟩
  · rintro (⟨rfl, hb⟩ | ⟨hq, hb⟩)
    · exact ⟨0, by omega, hb, by rw [Nat.zero_add, Nat.mod_eq_of_lt (by omega)]⟩
    · refine ⟨q + 1, hq, hb, ?_⟩
      have h1 : q + 1 + (n - 1) = q + n := by omega
      rw [h1, Nat.add_mod_right, Nat.mod_eq_of_lt (by omega)]

theorem rotl_sub_one_testBit {n : Nat} (hn : 1 ≤ n) (x q : Nat) :
    (rotl_spec n x (n - 1)).testBit q =
      ((decide (q = n - 1) && x.testBit 0) || (decide (q + 1 < n) && x.testBit (q + 1))) := by
  rw [rotl_spec_testBit]
  have hstep : decide (q ∈ (bit_place_values x n).map (fun p => (p + (n - 1)) % n)) =
      decide ((q = n - 1 ∧ x.testBit 0 = true) ∨ (q + 1 < n ∧ x.testBit (q + 1) = true)) :=
    decide_eq_decide.mpr (rot_sub_one_mem_iff hn x q)
  rw [hstep]
  rcases hb0 : x.testBit 0 with h0 | h0
  all_goals rcases hb1 : x.testBit (q + 1) with hh | hh
  all_goals by_cases h1 : q = n - 1
  all_goals by_cases h2 : q + 1 < n
  all_goals simp [hb0, hb1, h1, h2]

theorem wrap_rotr_step_testBit {n x : Nat} (hn : 1 ≤ n) (hx : x < 2 ^ n) (q : Nat) :
    (wrap_rotr_step n x).testBit q =
      ((decide (q = n - 1) && x.testBit 0) || (decide (q + 1 < n) && x.testBit (q + 1))) := by
  have hxs : x >>> 1 = x / 2 := by
    rw [Nat.shiftRight_eq_div_pow]
  have hpow : (2 : Nat) ^ n = 2 ^ (n - 1) * 2 := by
    calc (2 : Nat) ^ n = 2 ^ ((n - 1) + 1) := by congr 1; omega
    _ = 2 ^ (n - 1) * 2 := by rw [pow_succ]
  have hlt2 : x >>> 1 < 2 ^ (n - 1) := by
    rw [hxs]
    rw [hpow] at hx
    omega
  have hsr : ∀ j, (x >>> 1).testBit j = x.testBit (j + 1) := by
    intro j
    rw [Nat.testBit_shiftRight]
    congr 1
    omega
  unfold wrap_rotr_step
  by_cases hc : x &&& 1 = 1
  · have hb0 : x.testBit 0 = true := (and_one_eq_one_iff x).mp hc
    rw [if_pos hc]
    have : x >>> 1 + find_power 2 (n - 1) = 2 ^ (n - 1) + x >>> 1 := by
      simp [find_power]
      omega
    rw [this, two_pow_add_testBit hlt2 q, hsr q]
    by_cases h1 : q = n - 1
    · subst h1
      have hstop : x.testBit (n - 1 + 1) = false := by
        apply Nat.testBit_lt_two_pow
        calc x < 2 ^ n := hx
        _ ≤ 2 ^ (n - 1 + 1) := Nat.pow_le_pow_right (by norm_num) (by omega)
      simp [hstop, hb0]
    · by_cases h2 : q + 1 < n
      · simp [h1, h2]
      · have hbq : x.testBit (q + 1) = false := by
          apply Nat.testBit_lt_two_pow
          calc x < 2 ^ n := hx
          _ ≤ 2 ^ (q + 1) := Nat.pow_le_pow_right (by norm_num) (by omega)
        simp [h1, h2, hbq]
  · have hb0 : x.testBit 0 = false := by
      rcases hb : x.testBit 0
      · rfl
      · exact absurd ((and_one_eq_one_iff x).mpr hb) hc
    rw [if_neg hc, hsr q]
    by_cases h2 : q + 1 < n
    · simp [hb0, h2]
    · have hbq : x.testBit (q + 1) = false := by
        apply Nat.testBit_lt_two_pow
        calc x < 2 ^ n := hx
        _ ≤ 2 ^ (q + 1) := Nat.pow_le_pow_right (by norm_num) (by omega)
      simp [hb0, h2, hbq]

theorem wrap_rotr_step_eq {n x : Nat} (hn : 1 ≤ n) (hx : x < 2 ^ n) :
    wrap_rotr_step n x = rotl_spec n x (n - 1) := by
  apply Nat.eq_of_testBit_eq
  intro q
  rw [wrap_rotr_step_testBit hn hx q, rotl_sub_one_testBit hn x q]

theorem wrap_rotr_step_lt {n x : Nat} (hx : x < 2 ^ n) : wrap_rotr_step n x < 2 ^ n := by
  by_cases hn : 1 ≤ n
  · rw [wrap_rotr_step_eq hn hx]
    exact rotl_spec_lt n x (n - 1)
  · have hn0 : n = 0 := by omega
    subst hn0
    have hx0 : x = 0 := by omega
    subst hx0
    simp [wrap_rotr_step]

theorem wrap_rotr_zero_word (n : Nat) : ∀ a : Nat, wrap_rotr n 0 a = 0 := by
  intro a
  induction a with
  | zero => rfl
  | succ a ih =>
    rw [wrap_rotr]
    have hstep : wrap_rotr_step n 0 = 0 := by simp [wrap_rotr_step]
    rw [hstep]
    exact ih

theorem wrap_rotr_rotl (n : Nat) (hn : 1 ≤ n) : ∀ (a x : Nat), x < 2 ^ n →
    wrap_rotr n x a = rotl_spec n x ((a * (n - 1)) % n) := by
  intro a
  induction a with
  | zero =>
    intro x hx
    rw [wrap_rotr]
    rw [Nat.zero_mul, Nat.zero_mod, rotl_spec_zero hx]
  | succ a ih =>
    intro x hx
    rw [wrap_rotr, ih (wrap_rotr_step n x) (wrap_rotr_step_lt hx),
      wrap_rotr_step_eq hn hx, rotl_spec_comp, add_mod_mod]
    congr 1
    ring

theorem wrap_rotr_eq {n : Nat} (a x : Nat) (hx : x < 2 ^ n) (ha : a ≤ n) :
    wrap_rotr n x a = rotr_spec n x a := by
  by_cases hn : 1 ≤ n
  · rw [wrap_rotr_rotl n hn a x hx, rotr_spec]
    congr 1
    rcases Nat.eq_zero_or_pos a with rfl | hapos
    · simp
    · have h1 : a * (n - 1) + a = a * n := by
        cases n with
        | zero => omega
        | succ m => simp only [Nat.add_sub_cancel]; ring
      have h2 : n * (a - 1) + n = a * n := by
        cases a with
        | zero => omega
        | succ m => simp only [Nat.add_sub_cancel]; ring
      have key : a * (n - 1) = n * (a - 1) + (n - a) := by omega
      rw [key, Nat.mul_add_mod]
  · have hn0 : n = 0 := by omega
    subst hn0
    have ha0 : a = 0 := by omega
    have hx0 : x = 0 := by omega
    subst ha0
    subst hx0
    simp [wrap_rotr, rotr_spec, rotl_spec]

/-! ### Hamming distance and weight -/

theorem shiftRight_and_one (x r : Nat) : (x >>> r) &&& 1 = if x.testBit r then 1 else 0 := by
  rw [Nat.and_one_is_mod, Nat.shiftRight_eq_div_pow, Nat.testBit_to_div_mod]
  rcases Nat.mod_two_eq_zero_or_one (x / 2 ^ r) with h | h <;> simp [h]

theorem hamming_distance_eq (n a b : Nat) : hamming_distance n a b = weight n (a ^^^ b) := by
  unfold hamming_distance weight
  have hfun : (fun (acc : Nat) (place_value : Nat) =>
        acc + (((a ^^^ b) >>> place_value) &&& 1)) =
      (fun acc place_value => acc + if (a ^^^ b).testBit place_value then 1 else 0) := by
    funext acc pv
    rw [shiftRight_and_one]
  rw [hfun, foldl_count, Nat.zero_add]

theorem weight_le (n w : Nat) : weight n w ≤ n := by
  calc weight n w ≤ (List.range n).length := List.countP_le_length _
  _ = n := List.length_range n

theorem weight_zero_eq (n : Nat) : weight n 0 = 0 := by
  simp [weight]

theorem hamming_distance_zero_right (n w : Nat) : hamming_distance n 0 w = weight n w := by
  rw [hamming_distance_eq, Nat.zero_xor]

/-! ### The syndrome computation -/

theorem row_xor_select_eq (rows : List Nat) (w : Nat) :
    row_xor_select rows w = xorList (((List.range rows.length).filter
      (fun pv => w.testBit pv)).map (fun pv => rows.getD (rows.length - 1 - pv) 0)) := by
  unfold row_xor_select
  rw [foldl_cond_xor, Nat.zero_xor]

theorem row_xor_select_congr {rows : List Nat} {w1 w2 : Nat}
    (h : ∀ pv, pv < rows.length → w1.testBit pv = w2.testBit pv) :
    row_xor_select rows w1 = row_xor_select rows w2 := by
  rw [row_xor_select_eq, row_xor_select_eq]
  congr 2
  apply List.filter_congr
  intro pv hpv
  exact h pv (List.mem_range.mp hpv)

theorem xorList_testBit (b : Nat) : ∀ l : List Nat,
    (xorList l).testBit b = decide ((l.countP (fun x => x.testBit b)) % 2 = 1) := by
  intro l
  induction l with
  | nil => simp [xorList]
  | cons x t ih =>
    rw [xorList_cons, Nat.testBit_xor, ih, List.countP_cons]
    rcases hb : x.testBit b
    · rcases Nat.mod_two_eq_zero_or_one (t.countP (fun x => x.testBit b)) with h | h
      · simp [hb, h, Nat.add_mod]
      · simp [hb, h, Nat.add_mod]
    · rcases Nat.mod_two_eq_zero_or_one (t.countP (fun x => x.testBit b)) with h | h
      · simp [hb, h, Nat.add_mod]
      · simp [hb, h, Nat.add_mod]

theorem dot_product_eq (n w h : Nat) :
    dot_product n w h = ((List.range n).countP (fun r => w.testBit r && h.testBit r)) % 2 := by
  unfold dot_product
  have hfun : (fun (dp : Nat) (row : Nat) =>
        dp ^^^ (((w >>> row) &&& 1) &&& ((h >>> row) &&& 1))) =
      (fun dp row => dp ^^^ (if (w.testBit row && h.testBit row) then 1 else 0)) := by
    funext dp row
    rw [shiftRight_and_one, shiftRight_and_one]
    rcases hw : w.testBit row <;> rcases hh : h.testBit row <;> simp [hw, hh]
  rw [hfun]
  have main : ∀ (l : List Nat) (acc : Nat), acc ≤ 1 →
      l.foldl (fun dp row => dp ^^^ (if (w.testBit row && h.testBit row) then 1 else 0)) acc =
        (acc + l.countP (fun r => w.testBit r && h.testBit r)) % 2 := by
    intro l
    induction l with
    | nil =>
      intro acc hacc
      interval_cases acc <;> simp
    | cons x t ih =>
      intro acc hacc
      rw [List.foldl_cons, List.countP_cons]
      rcases hx : (w.testBit x && h.testBit x)
      · rw [if_neg (by simp [hx]), Nat.xor_zero, ih acc hacc]
        simp [hx]
      · rw [if_pos (by simp [hx])]
        have hval : acc ^^^ 1 = 1 - acc := by interval_cases acc <;> rfl
        rw [hval, ih (1 - acc) (by omega)]
        have hc := Nat.mod_two_eq_zero_or_one (t.countP (fun r => w.testBit r && h.testBit r))
        interval_cases acc <;> omega
  rw [main (List.range n) 0 (by omega), Nat.zero_add]

theorem get_transpose_length (H : List Nat) (n : Nat) : (get_transpose H n).length = n := by
  simp [get_transpose]

theorem transpose_getD {H : List Nat} {n j : Nat} (hj : j < n) :
    (get_transpose H n).getD j 0 =
      (((List.range H.length).filter (fun r => (H.getD r 0).testBit (n - 1 - j))).map
        (fun r => 2 ^ (H.length - 1 - r))).sum := by
  unfold get_transpose
  rw [List.getD_eq_getElem?_getD, List.getElem?_map, List.getElem?_range hj]
  simp only [Option.map_some', Option.getD_some]
  rw [foldl_cond_add, Nat.zero_add]
  simp only [find_power]

theorem transpose_testBit {H : List Nat} {n j : Nat} (hj : j < n) (b : Nat) :
    ((get_transpose H n).getD j 0).testBit b =
      decide (∃ r, r < H.length ∧ (H.getD r 0).testBit (n - 1 - j) = true ∧
        H.length - 1 - r = b) := by
  rw [transpose_getD hj]
  have hnd : (((List.range H.length).filter (fun r => (H.getD r 0).testBit (n - 1 - j))).map
      (fun r => H.length - 1 - r)).Nodup := by
    refine List.Nodup.map_on ?_ ((List.nodup_range H.length).filter _)
    intro p hp q hq heq
    have hp1 : p < H.length := List.mem_range.mp (List.mem_of_mem_filter hp)
    have hq1 : q < H.length := List.mem_range.mp (List.mem_of_mem_filter hq)
    omega
  have hlt : ∀ b2 ∈ ((List.range H.length).filter
      (fun r => (H.getD r 0).testBit (n - 1 - j))).map (fun r => H.length - 1 - r),
      b2 < H.length := by
    intro b2 hb2
    rcases List.mem_map.mp hb2 with ⟨r, hr, rfl⟩
    have : r < H.length := List.mem_range.mp (List.mem_of_mem_filter hr)
    omega
  have hsum := sum_two_pow_testBit H.length _ hnd hlt b
  rw [List.map_map] at hsum
  have hform : ((List.range H.length).filter
      (fun r => (H.getD r 0).testBit (n - 1 - j))).map
        ((fun p => 2 ^ p) ∘ (fun r => H.length - 1 - r)) =
      ((List.range H.length).filter (fun r => (H.getD r 0).testBit (n - 1 - j))).map
        (fun r => 2 ^ (H.length - 1 - r)) := rfl
  rw [hform] at hsum
  rw [hsum, decide_eq_decide]
  simp only [List.mem_map, List.mem_filter, List.mem_range]
  constructor
  · rintro ⟨r, ⟨hr1, hr2⟩, hr3⟩
    exact ⟨r, hr1, hr2, hr3⟩
  · rintro ⟨r, hr1, hr2, hr3⟩
    exact ⟨r, ⟨hr1, hr2⟩, hr3⟩

theorem syndrome_testBit (H : List Nat) (n w b : Nat) :
    (row_xor_select (get_transpose H n) w).testBit b =
      decide ((((List.range n).filter (fun pv => w.testBit pv)).countP
        (fun pv => ((get_transpose H n).getD (n - 1 - pv) 0).testBit b)) % 2 = 1) := by
  rw [row_xor_select_eq, get_transpose_length, xorList_testBit, List.countP_map]
  rfl

theorem syndrome_testBit_low {H : List Nat} {n w b : Nat} (hb : b < H.length) :
    (row_xor_select (get_transpose H n) w).testBit b =
      decide (dot_product n w (H.getD (H.length - 1 - b) 0) = 1) := by
  rw [syndrome_testBit]
  have hcount : ((List.range n).filter (fun pv => w.testBit pv)).countP
      (fun pv => ((get_transpose H n).getD (n - 1 - pv) 0).testBit b) =
      ((List.range n).filter (fun pv => w.testBit pv)).countP
        (fun pv => (H.getD (H.length - 1 - b) 0).testBit pv) := by
    apply List.countP_congr
    intro pv hpv
    have hpvn : pv < n := List.mem_range.mp (List.mem_of_mem_filter hpv)
    have hj : n - 1 - pv < n := by omega
    rw [transpose_testBit hj b]
    have hidx : n - 1 - (n - 1 - pv) = pv := by omega
    rw [hidx]
    simp only [decide_eq_true_eq]
    constructor
    · rintro ⟨r, hr1, hr2, hr3⟩
      have : r = H.length - 1 - b := by omega
      rw [← this]
      exact hr2
    · intro hbit
      exact ⟨H.length - 1 - b, by omega, hbit, by omega⟩
  rw [hcount]
  rw [dot_product_eq]
  congr 1
  rw [List.countP_filter]
  have : ∀ pv ∈ List.range n,
      ((H.getD (H.length - 1 - b) 0).testBit pv && w.testBit pv) =
        (w.testBit pv && (H.getD (H.length - 1 - b) 0).testBit pv) := by
    intro pv _
    rw [Bool.and_comm]
  rw [List.countP_congr (fun pv hpv => by rw [this pv hpv])]

theorem syndrome_testBit_high {H : List Nat} {n w b : Nat} (hb : H.length ≤ b) :
    (row_xor_select (get_transpose H n) w).testBit b = false := by
  rw [syndrome_testBit]
  have hzero : ((List.range n).filter (fun pv => w.testBit pv)).countP
      (fun pv => ((get_transpose H n).getD (n - 1 - pv) 0).testBit b) = 0 := by
    rw [List.countP_eq_zero]
    intro pv hpv
    have hpvn : pv < n := List.mem_range.mp (List.mem_of_mem_filter hpv)
    have hj : n - 1 - pv < n := by omega
    rw [transpose_testBit hj b]
    simp only [decide_eq_true_eq, not_exists]
    rintro r ⟨hr1, _, hr3⟩
    omega
  rw [hzero]
  simp

theorem syndrome_lt (H : List Nat) (n w : Nat) :
    row_xor_select (get_transpose H n) w < 2 ^ H.length :=
  Nat.lt_pow_two_of_testBit _ (fun _ hi => syndrome_testBit_high hi)

theorem is_code_word_iff (H : List Nat) (n w : Nat) :
    is_code_word H n w = true ↔ ∀ r, r < H.length → dot_product n w (H.getD r 0) = 0 := by
  unfold is_code_word
  rw [List.all_eq_true]
  constructor
  · intro h r hr
    have hmem : H.getD r 0 ∈ H := by
      rw [List.getD_eq_getElem?_getD, List.getElem?_eq_getElem hr]
      exact List.getElem_mem hr
    have := h (dot_product n w (H.getD r 0)) (List.mem_map_of_mem _ hmem)
    simpa using this
  · intro h dp hdp
    rcases List.mem_map.mp hdp with ⟨hrow, hmem, rfl⟩
    rcases List.getElem_of_mem hmem with ⟨r, hr, rfl⟩
    have hget : H.getD r 0 = H[r] := by
      rw [List.getD_eq_getElem?_getD, List.getElem?_eq_getElem hr]
      rfl
    have := h r hr
    rw [hget] at this
    rw [this]
    rfl

theorem syndrome_zero_of_code_word {H : List Nat} {n w : Nat}
    (h : is_code_word H n w = true) :
    row_xor_select (get_transpose H n) w = 0 := by
  apply Nat.eq_of_testBit_eq
  intro b
  rw [Nat.zero_testBit]
  by_cases hb : b < H.length
  · rw [syndrome_testBit_low hb]
    have hd := (is_code_word_iff H n w).mp h (H.length - 1 - b) (by omega)
    rw [hd]
    simp
  · exact syndrome_testBit_high (by omega)

/-! ### The burst-length search loop -/

theorem inner_scan_found {bursts syndromes : List Nat} {d : Nat} {st : BSearchState}
    (h : st.found = true) : inner_scan bursts syndromes d st = st := by
  simp [inner_scan, h]

theorem outer_loop_unfold (b s : List Nat) (st : BSearchState) :
    outer_loop b s 5 3 st =
      some (inner_scan b s 0 (inner_scan b s 1 (inner_scan b s 2 (inner_scan b s 3 st)))) := rfl

theorem outer_loop_fuel_short (b s : List Nat) (st : BSearchState) :
    outer_loop b s 4 3 st = none := rfl

theorem decode_word_B_search (H : List Nat) (n r : Nat) :
    decode_word_B H n r =
      (let syndromes := get_syndromes H n r
       let bursts := syndromes.map (fun s => get_burst_length s H.length)
       let st := inner_scan bursts syndromes 0 (inner_scan bursts syndromes 1
         (inner_scan bursts syndromes 2 (inner_scan bursts syndromes 3 ⟨false, 0, 0⟩)))
       if st.found then
         (r ^^^ wrap_rotr n (st.light <<< (n - H.length)) (n - st.pos), true)
       else (r, false)) := by
  unfold decode_word_B
  simp only [show max_burst_length = 3 from rfl, show (3 : Nat) + 2 = 5 from rfl,
    outer_loop_unfold, Option.getD_some]

/-! ### The running-minimum fold of nearest-neighbor decoding -/

theorem pair_fold (f : Nat → Nat) : ∀ (l : List Nat) (e : Nat),
    l.foldl (fun st c => if f c < st.2 then (c, f c) else st) (e, f e) =
      (l.foldl (fun b c => if f c < f b then c else b) e,
       f (l.foldl (fun b c => if f c < f b then c else b) e)) := by
  intro l
  induction l with
  | nil => intro e; rfl
  | cons x t ih =>
    intro e
    rw [List.foldl_cons, List.foldl_cons]
    by_cases hlt : f x < f e
    · rw [if_pos hlt, if_pos hlt, ih x]
    · rw [if_neg hlt, if_neg hlt, ih e]

theorem gfold_first (f : Nat → Nat) : ∀ (l : List Nat) (e : Nat),
    ∃ j, j < (e :: l).length ∧
      l.foldl (fun b c => if f c < f b then c else b) e = (e :: l).getD j 0 ∧
      (∀ k, k < (e :: l).length → f ((e :: l).getD j 0) ≤ f ((e :: l).getD k 0)) ∧
      (∀ k, k < j → f ((e :: l).getD j 0) < f ((e :: l).getD k 0)) := by
  intro l
  induction l with
  | nil =>
    intro e
    refine ⟨0, by simp, rfl, ?_, by omega⟩
    intro k hk
    simp only [List.length_cons, List.length_nil] at hk
    interval_cases k
    exact le_refl _
  | cons x t ih =>
    intro e
    rw [List.foldl_cons]
    by_cases hlt : f x < f e
    · rw [if_pos hlt]
      rcases ih x with ⟨j, hj, hres, hmin, hfirst⟩
      refine ⟨j + 1, ?_, ?_, ?_, ?_⟩
      · simp only [List.length_cons] at hj ⊢
        omega
      · rw [hres]
        rfl
      · intro k hk
        rcases k with _ | k
        · calc f ((e :: x :: t).getD (j + 1) 0) = f ((x :: t).getD j 0) := rfl
          _ ≤ f ((x :: t).getD 0 0) := hmin 0 (by simp)
          _ = f x := rfl
          _ ≤ f e := le_of_lt hlt
        · exact hmin k (by simp only [List.length_cons] at hk ⊢; omega)
      · intro k hk
        rcases k with _ | k
        · calc f ((e :: x :: t).getD (j + 1) 0) = f ((x :: t).getD j 0) := rfl
          _ ≤ f x := hmin 0 (by simp)
          _ < f e := hlt
        · exact hfirst k (by omega)
    · rw [if_neg hlt]
      rcases ih e with ⟨j, hj, hres, hmin, hfirst⟩
      have hee : f e ≤ f x := by omega
      rcases j with _ | j2
      · refine ⟨0, by simp, by rw [hres]; rfl, ?_, by omega⟩
        intro k hk
        rcases k with _ | (_ | k)
        · exact le_refl _
        · exact le_trans (hmin 0 (by simp)) hee
        · exact hmin (k + 1) (by simp only [List.length_cons] at hk ⊢; omega)
      · refine ⟨j2 + 2, ?_, by rw [hres]; rfl, ?_, ?_⟩
        · simp only [List.length_cons] at hj ⊢
          omega
        · intro k hk
          rcases k with _ | (_ | k)
          · exact hmin 0 (by simp)
          · exact le_trans (hmin 0 (by simp)) hee
          · exact hmin (k + 1) (by simp only [List.length_cons] at hk ⊢; omega)
        · intro k hk
          rcases k with _ | (_ | k)
          · exact hfirst 0 (by omega)
          · exact lt_of_lt_of_le (hfirst 0 (by omega)) hee
          · exact hfirst (k + 1) (by omega)

/-! ### Encoder algebra -/

theorem xor_shuffle (s t R : Nat) : (s ^^^ R) ^^^ (t ^^^ R) = s ^^^ t := by
  rw [Nat.xor_assoc, Nat.xor_comm t R, ← Nat.xor_assoc R R t, Nat.xor_self, Nat.zero_xor]

theorem xor_move (s t R : Nat) : (s ^^^ t) ^^^ R = (s ^^^ R) ^^^ t := by
  rw [Nat.xor_assoc, Nat.xor_comm t R, ← Nat.xor_assoc]

theorem row_xor_select_zero (rows : List Nat) : row_xor_select rows 0 = 0 := by
  rw [row_xor_select_eq]
  simp [Nat.zero_testBit, xorList]

theorem row_xor_select_linear (rows : List Nat) (a b : Nat) :
    row_xor_select rows (a ^^^ b) = row_xor_select rows a ^^^ row_xor_select rows b := by
  suffices h : ∀ (l : List Nat) (s t : Nat),
      l.foldl (fun acc pv => if (a ^^^ b).testBit pv then
        acc ^^^ rows.getD (rows.length - 1 - pv) 0 else acc) (s ^^^ t) =
      l.foldl (fun acc pv => if a.testBit pv then
        acc ^^^ rows.getD (rows.length - 1 - pv) 0 else acc) s ^^^
      l.foldl (fun acc pv => if b.testBit pv then
        acc ^^^ rows.getD (rows.length - 1 - pv) 0 else acc) t by
    have h2 := h (List.range rows.length) 0 0
    rw [Nat.xor_zero] at h2
    exact h2
  intro l
  induction l with
  | nil => intro s t; rfl
  | cons x t2 ih =>
    intro s t
    rw [List.foldl_cons, List.foldl_cons, List.foldl_cons, Nat.testBit_xor]
    rcases ha : a.testBit x
    · rcases hb : b.testBit x
      · exact ih s t
      · rw [show s ^^^ t ^^^ rows.getD (rows.length - 1 - x) 0 =
          s ^^^ (t ^^^ rows.getD (rows.length - 1 - x) 0) from Nat.xor_assoc s t _]
        exact ih s (t ^^^ rows.getD (rows.length - 1 - x) 0)
    · rcases hb : b.testBit x
      · rw [xor_move s t (rows.getD (rows.length - 1 - x) 0)]
        exact ih (s ^^^ rows.getD (rows.length - 1 - x) 0) t
      · rw [show s ^^^ t = (s ^^^ rows.getD (rows.length - 1 - x) 0) ^^^
          (t ^^^ rows.getD (rows.length - 1 - x) 0) from (xor_shuffle s t _).symm]
        exact ih (s ^^^ rows.getD (rows.length - 1 - x) 0)
          (t ^^^ rows.getD (rows.length - 1 - x) 0)

/-! ### Codebook facts -/

theorem mem_code_words {H : List Nat} {n w : Nat} :
    w ∈ code_words H n ↔ w < 2 ^ n ∧ is_code_word H n w = true := by
  simp [code_words, find_power, List.mem_filter, List.mem_range]

theorem dot_product_zero_left (n h : Nat) : dot_product n 0 h = 0 := by
  rw [dot_product_eq]
  simp [Nat.zero_testBit]

theorem is_code_word_zero (H : List Nat) (n : Nat) : is_code_word H n 0 = true := by
  rw [is_code_word_iff]
  intro r _
  exact dot_product_zero_left n _

theorem zero_mem_code_words (H : List Nat) (n : Nat) : 0 ∈ code_words H n :=
  mem_code_words.mpr ⟨Nat.pos_pow_of_pos n (by norm_num), is_code_word_zero H n⟩

theorem countP_xor_parity {p1 p2 p3 : Nat → Bool} (h : ∀ x, p3 x = (p1 x).xor (p2 x)) :
    ∀ l : List Nat, (l.countP p3) % 2 = (l.countP p1 + l.countP p2) % 2 := by
  intro l
  induction l with
  | nil => rfl
  | cons x t ih =>
    rw [List.countP_cons, List.countP_cons, List.countP_cons]
    have hx := h x
    have e0 : (if false = true then (1 : Nat) else 0) = 0 := rfl
    have e1 : (if true = true then (1 : Nat) else 0) = 1 := rfl
    rcases h1 : p1 x <;> rcases h2 : p2 x <;> rw [h1, h2] at hx <;>
      simp only [Bool.xor_false, Bool.xor_true, Bool.false_xor, Bool.true_xor,
        Bool.not_false, Bool.not_true] at hx <;>
      rw [hx] <;> simp only [e0, e1] <;> omega

theorem dot_product_linear (n a b h : Nat) :
    dot_product n (a ^^^ b) h = dot_product n a h ^^^ dot_product n b h := by
  rw [dot_product_eq, dot_product_eq, dot_product_eq]
  have hpar := @countP_xor_parity (fun r => a.testBit r && h.testBit r)
    (fun r => b.testBit r && h.testBit r)
    (fun r => (a ^^^ b).testBit r && h.testBit r) ?_ (List.range n)
  · rw [hpar]
    rcases Nat.mod_two_eq_zero_or_one ((List.range n).countP (fun r => a.testBit r && h.testBit r))
      with h1 | h1 <;>
    rcases Nat.mod_two_eq_zero_or_one ((List.range n).countP (fun r => b.testBit r && h.testBit r))
      with h2 | h2 <;>
    rw [h1, h2] <;>
    simp only [show (0 : Nat) ^^^ 0 = 0 from rfl, show (0 : Nat) ^^^ 1 = 1 from rfl,
      show (1 : Nat) ^^^ 0 = 1 from rfl, show (1 : Nat) ^^^ 1 = 0 from rfl] <;> omega
  · intro x
    show ((a ^^^ b).testBit x && h.testBit x) =
      ((a.testBit x && h.testBit x).xor (b.testBit x && h.testBit x))
    rw [Nat.testBit_xor]
    rcases hax : a.testBit x <;> rcases hbx : b.testBit x <;> rcases hhx : h.testBit x <;> rfl

theorem is_code_word_xor {H : List Nat} {n a b : Nat}
    (ha : is_code_word H n a = true) (hb : is_code_word H n b = true) :
    is_code_word H n (a ^^^ b) = true := by
  rw [is_code_word_iff] at ha hb ⊢
  intro r hr
  rw [dot_product_linear, ha r hr, hb r hr]
  rfl

theorem xor_lt_two_pow_of_lt {n a b : Nat} (ha : a < 2 ^ n) (hb : b < 2 ^ n) :
    a ^^^ b < 2 ^ n := by
  apply Nat.lt_pow_two_of_testBit
  intro i hi
  rw [Nat.testBit_xor,
    Nat.testBit_lt_two_pow (lt_of_lt_of_le ha (Nat.pow_le_pow_right (by norm_num) hi)),
    Nat.testBit_lt_two_pow (lt_of_lt_of_le hb (Nat.pow_le_pow_right (by norm_num) hi))]
  rfl

theorem code_words_sorted (H : List Nat) (n : Nat) :
    List.Sorted (fun a b => a < b) (code_words H n) :=
  List.Pairwise.sublist (List.filter_sublist _) (List.pairwise_lt_range _)

/-! ### The reordered syndrome list of cyclic_codes_2.h -/

theorem rotl_zero_testBit {n x q : Nat} (hq : q < n) :
    (rotl_spec n x 0).testBit q = x.testBit q := by
  rw [rotl_spec_testBit]
  rcases hb : x.testBit q
  · simp only [decide_eq_false_iff_not, rotl_spec_mem_iff]
    rintro ⟨p, hp1, hp2, hp3⟩
    rw [Nat.add_zero, Nat.mod_eq_of_lt hp1] at hp3
    rw [hp3] at hp2
    rw [hp2] at hb
    exact Bool.false_ne_true hb.symm
  · simp only [decide_eq_true_eq, rotl_spec_mem_iff]
    exact ⟨q, hq, hb, by rw [Nat.add_zero, Nat.mod_eq_of_lt hq]⟩

theorem shifts_getD {n : Nat} (hn : 1 ≤ n) (r : Nat) {i : Nat} (hi1 : 1 ≤ i) (hi2 : i < n) :
    (get_cyclic_shifts r n).getD i 0 = rotl_spec n r i := by
  rw [get_cyclic_shifts_eq hn r]
  rcases i with _ | i2
  · omega
  · have hgd : (r :: (List.range (n - 1)).map (fun t => rotl_spec n r (t + 1))).getD (i2 + 1) 0 =
        ((List.range (n - 1)).map (fun t => rotl_spec n r (t + 1))).getD i2 0 := rfl
    rw [hgd, List.getD_eq_getElem?_getD, List.getElem?_map,
      List.getElem?_range (show i2 < n - 1 by omega)]
    rfl

theorem syndromesA_eq {H : List Nat} {n : Nat} (hn : 1 ≤ n) (r : Nat) :
    (get_cyclic_shifts r n).map (fun s => row_xor_select (get_transpose H n) s) =
      (List.range n).map (fun i => row_xor_select (get_transpose H n) (rotl_spec n r i)) := by
  rw [get_cyclic_shifts_eq hn r]
  have hr : List.range n = 0 :: (List.range (n - 1)).map Nat.succ := by
    rw [← List.range_succ_eq_map]
    congr 1
    omega
  rw [hr]
  simp only [List.map_cons, List.map_map]
  congr 1
  apply row_xor_select_congr
  intro pv hpv
  rw [get_transpose_length] at hpv
  exact (rotl_zero_testBit hpv).symm

theorem get_syndromes_eq {H : List Nat} {n : Nat} (hn : 1 ≤ n) (r : Nat) :
    get_syndromes H n r =
      (List.range n).map (fun i =>
        row_xor_select (get_transpose H n) (rotl_spec n r ((n - i) % n))) := by
  unfold get_syndromes
  have hsz : (get_cyclic_shifts r n).length = n := get_cyclic_shifts_length hn r
  have hr : List.range n = 0 :: (List.range (n - 1)).map Nat.succ := by
    rw [← List.range_succ_eq_map]
    congr 1
    omega
  simp only [hsz]
  rw [hr]
  simp only [List.map_cons, List.map_map]
  congr 1
  · have hhead : (get_cyclic_shifts r n).headD 0 = r := by
      rw [get_cyclic_shifts_eq hn r]
      rfl
    rw [hhead]
    apply row_xor_select_congr
    intro pv hpv
    rw [get_transpose_length] at hpv
    rw [show (n - 0) % n = 0 from by simp]
    exact (rotl_zero_testBit hpv).symm
  · apply List.map_congr_left
    intro j hj
    have hj2 : j < n - 1 := List.mem_range.mp hj
    simp only [Function.comp_apply]
    congr 1
    rw [shifts_getD hn r (show 1 ≤ n - 1 - j by omega) (show n - 1 - j < n by omega)]
    congr 1
    have hmod : (n - (j + 1)) % n = n - (j + 1) := Nat.mod_eq_of_lt (by omega)
    rw [hmod]
    omega

theorem mem_get_syndromes_lt {H : List Nat} {n r : Nat} :
    ∀ s ∈ get_syndromes H n r, s < 2 ^ H.length := by
  intro s hs
  unfold get_syndromes at hs
  rcases List.mem_map.mp hs with ⟨w, _, rfl⟩
  exact syndrome_lt H n w

theorem get_syndromes_length {H : List Nat} {n : Nat} (hn : 1 ≤ n) (r : Nat) :
    (get_syndromes H n r).length = n := by
  unfold get_syndromes
  rw [List.length_map, List.length_cons, List.length_map, List.length_range,
    get_cyclic_shifts_length hn r]
  omega

/-! ### Burst length of the zero syndrome -/

theorem shifts_loop_nil (L : Nat) : ∀ k, shifts_loop L k [] = List.replicate k 0 := by
  intro k
  induction k with
  | zero => rfl
  | succ k ih =>
    rw [shifts_loop]
    simp only [shift_places, List.map_nil]
    rw [List.replicate_succ]
    exact congrArg (fun l => word_of_places [] :: l) ih

theorem foldl_zeros {F : Nat → Nat → Nat} {c : Nat} (hF : ∀ acc, F acc 0 = c) :
    ∀ (k : Nat) (a : Nat), (0 :: List.replicate k 0).foldl F a = c := by
  intro k
  induction k with
  | zero => intro a; exact hF a
  | succ k ih =>
    intro a
    rw [List.replicate_succ, List.foldl_cons]
    exact ih (F a 0)

theorem get_burst_length_zero (m : Nat) : get_burst_length 0 m = 0 := by
  unfold get_burst_length get_cyclic_shifts
  rw [bit_place_values_zero, shifts_loop_nil]
  apply foldl_zeros
  intro acc
  simp [bit_place_values_zero]

/-! ### Unfolding lemmas for the two decoders -/

/-- The result of the four-pass burst-length search of `decode_word`
(`cyclic_codes_2.h`), innermost pass at desired length 3. -/
def bscan (H : List Nat) (n r : Nat) : BSearchState :=
  let syndromes := get_syndromes H n r
  let bursts := syndromes.map (fun s => get_burst_length s H.length)
  inner_scan bursts syndromes 0 (inner_scan bursts syndromes 1
    (inner_scan bursts syndromes 2 (inner_scan bursts syndromes 3 ⟨false, 0, 0⟩)))

theorem decode_word_B_eq (H : List Nat) (n r : Nat) :
    decode_word_B H n r =
      if (bscan H n r).found then
        (r ^^^ wrap_rotr n ((bscan H n r).light <<< (n - H.length)) (n - (bscan H n r).pos),
          true)
      else (r, false) := by
  rw [decode_word_B_search]
  rfl

theorem bscan_eq (H : List Nat) (n r : Nat) :
    bscan H n r =
      (match ((get_syndromes H n r).map
          (fun s => get_burst_length s H.length)).findIdx? (fun b => b == 3) with
       | some i => ⟨true, (get_syndromes H n r).getD i 0, i⟩
       | none =>
         match ((get_syndromes H n r).map
             (fun s => get_burst_length s H.length)).findIdx? (fun b => b == 2) with
         | some i => ⟨true, (get_syndromes H n r).getD i 0, i⟩
         | none =>
           match ((get_syndromes H n r).map
               (fun s => get_burst_length s H.length)).findIdx? (fun b => b == 1) with
           | some i => ⟨true, (get_syndromes H n r).getD i 0, i⟩
           | none =>
             match ((get_syndromes H n r).map
                 (fun s => get_burst_length s H.length)).findIdx? (fun b => b == 0) with
             | some i => ⟨true, (get_syndromes H n r).getD i 0, i⟩
             | none => ⟨false, 0, 0⟩) := by
  unfold bscan
  rcases h3 : ((get_syndromes H n r).map
      (fun s => get_burst_length s H.length)).findIdx? (fun b => b == 3) with _ | i3
  · rcases h2 : ((get_syndromes H n r).map
        (fun s => get_burst_length s H.length)).findIdx? (fun b => b == 2) with _ | i2
    · rcases h1 : ((get_syndromes H n r).map
          (fun s => get_burst_length s H.length)).findIdx? (fun b => b == 1) with _ | i1
      · rcases h0 : ((get_syndromes H n r).map
            (fun s => get_burst_length s H.length)).findIdx? (fun b => b == 0) with _ | i0
        · simp [inner_scan, h3, h2, h1, h0]
        · simp [inner_scan, h3, h2, h1, h0]
      · simp [inner_scan, h3, h2, h1]
    · simp [inner_scan, h3, h2]
  · simp [inner_scan, h3]

theorem decode_word_A_eq (H : List Nat) (n r : Nat) :
    decode_word_A H n r =
      match ((get_cyclic_shifts r n).map
          (fun s => row_xor_select (get_transpose H n) s)).findIdx?
        (fun s => decide (hamming_distance n 0 s ≤ (min_distance H n - 1) / 2)) with
      | none => nearest_neighbor (code_words H n) n r
      | some i =>
        r ^^^ word_of_places
          ((bit_place_values
            (((get_cyclic_shifts r n).map
              (fun s => row_xor_select (get_transpose H n) s)).getD i 0 <<<
              (n - H.length)) n).map (fun p => (p + (n - i)) % n)) := by
  unfold decode_word_A
  rfl

/-! ### Small helper facts for the claim proofs -/

theorem hamming_distance_self_zero (n : Nat) : hamming_distance n 0 0 = 0 := by
  rw [hamming_distance_eq]
  simp [weight]

theorem hamming_distance_le (n x : Nat) : hamming_distance n 0 x ≤ n := by
  rw [hamming_distance_eq, Nat.zero_xor]
  exact weight_le n x

theorem hamming_distance_zero_xor (n a b : Nat) :
    hamming_distance n 0 (a ^^^ b) = hamming_distance n a b := by
  unfold hamming_distance
  rw [Nat.zero_xor]

theorem getD_map_lt {l : List Nat} {f : Nat → Nat} {k : Nat} (hk : k < l.length) :
    (l.map f).getD k 0 = f (l.getD k 0) := by
  rw [List.getD_eq_getElem?_getD, List.getD_eq_getElem?_getD, List.getElem?_map,
    List.getElem?_eq_getElem hk]
  rfl

theorem shiftLeft_lt_two_pow {s m n : Nat} (hs : s < 2 ^ m) (hmn : m ≤ n) :
    s <<< (n - m) < 2 ^ n := by
  rw [Nat.shiftLeft_eq]
  calc s * 2 ^ (n - m) < 2 ^ m * 2 ^ (n - m) := by
        apply Nat.mul_lt_mul_of_lt_of_le hs (le_refl _)
        exact Nat.pos_pow_of_pos _ (by norm_num)
  _ = 2 ^ n := by
        rw [← pow_add]
        congr 1
        omega

theorem decode_A_zero_syndrome {H : List Nat} {n r : Nat}
    (h0 : row_xor_select (get_transpose H n) r = 0) :
    decode_word_A H n r = r := by
  rw [decode_word_A_eq]
  have hcons : (get_cyclic_shifts r n).map (fun s => row_xor_select (get_transpose H n) s) =
      row_xor_select (get_transpose H n) r ::
        (shifts_loop n (n - 1) (bit_place_values r n)).map
          (fun s => row_xor_select (get_transpose H n) s) := rfl
  rw [hcons, h0, List.findIdx?_cons]
  rw [if_pos (by simp [hamming_distance_self_zero])]
  show r ^^^ word_of_places ((bit_place_values (0 <<< (n - H.length)) n).map
    (fun p => (p + (n - 0)) % n)) = r
  rw [Nat.zero_shiftLeft, bit_place_values_zero, List.map_nil]
  show r ^^^ 0 = r
  exact Nat.xor_zero r

theorem replicate_findIdx_ne {n v d : Nat} (h : v ≠ d) :
    (List.replicate n v).findIdx? (fun b => b == d) = none := by
  rw [List.findIdx?_eq_none_iff]
  intro x hx
  rcases List.mem_replicate.mp hx with ⟨_, rfl⟩
  simp [h]

theorem decode_B_all_zero {H : List Nat} {n r : Nat} (hn : 1 ≤ n)
    (hz : ∀ s ∈ get_syndromes H n r, s = 0) :
    decode_word_B H n r = (r, true) := by
  have hsyn : get_syndromes H n r = List.replicate n 0 :=
    List.eq_replicate_iff.mpr ⟨get_syndromes_length hn r, hz⟩
  have hbl : (get_syndromes H n r).map (fun s => get_burst_length s H.length) =
      List.replicate n 0 := by
    rw [hsyn, List.map_replicate, get_burst_length_zero]
  have hone : List.replicate n (0 : Nat) = 0 :: List.replicate (n - 1) 0 := by
    rcases n with _ | n2
    · omega
    · rfl
  have h0 : (List.replicate n (0 : Nat)).findIdx? (fun b => b == 0) = some 0 := by
    rw [hone, List.findIdx?_cons]
    simp
  have hscan : bscan H n r = ⟨true, 0, 0⟩ := by
    rw [bscan_eq, hbl, replicate_findIdx_ne (by omega), replicate_findIdx_ne (by omega),
      replicate_findIdx_ne (by omega), h0]
    simp only []
    rw [hsyn, hone]
    rfl
  rw [decode_word_B_eq, hscan]
  simp only []
  rw [if_pos trivial]
  show (r ^^^ wrap_rotr n (0 <<< (n - H.length)) (n - 0), true) = (r, true)
  rw [Nat.zero_shiftLeft, wrap_rotr_zero_word, Nat.xor_zero]

/-! ### Claim theorems -/

theorem filter_testBit_one : ∀ k : Nat,
    (List.range k).filter (fun i => (1 : Nat).testBit i) = if k = 0 then [] else [0] := by
  intro k
  induction k with
  | zero => rfl
  | succ k ih =>
    rcases Nat.eq_zero_or_pos k with rfl | hk
    · decide
    · rw [List.range_succ, List.filter_append, ih, if_neg (by omega), if_neg (by omega)]
      have hb : ((1 : Nat).testBit k) = false := by
        rw [show (1 : Nat) = 2 ^ 0 from rfl, Nat.testBit_two_pow]
        simp
        omega
      simp [hb]

/-- Claim C7: `encode_word` XORs exactly the generator rows at index
`k - 1 - i` for the set bits `i` of the message, so the least-significant
message bit selects the last row of the generator matrix. -/
theorem C7_encoder_contract (generator : List Nat) (message : Nat) :
    encode_word generator message =
      xorList (((List.range generator.length).filter (fun i => message.testBit i)).map
        (fun i => generator.getD (generator.length - 1 - i) 0)) ∧
    (1 ≤ generator.length →
      encode_word generator 1 = generator.getD (generator.length - 1) 0) := by
  constructor
  · exact row_xor_select_eq generator message
  · intro hg
    rw [encode_word, row_xor_select_eq, filter_testBit_one, if_neg (by omega)]
    show xorList [generator.getD (generator.length - 1 - 0) 0] = _
    rw [xorList_cons]
    show generator.getD (generator.length - 1) 0 ^^^ xorList [] = _
    rw [show xorList [] = 0 from rfl, Nat.xor_zero]

/-- Witness for C7 on the generator matrix `[7, 3]`: the message `1` selects
the last row, `3`. -/
theorem C7_encoder_contract_witness :
    1 ≤ List.length ([7, 3] : List Nat) ∧
    encode_word [7, 3] 1 = ([7, 3] : List Nat).getD (List.length ([7, 3] : List Nat) - 1) 0 :=
  ⟨by decide, (C7_encoder_contract [7, 3] 1).2 (by decide)⟩

/-- Claim C10: `encode_word` is a GF(2)-linear map, for every generator
matrix — identical code in both headers. -/
theorem C10_encoder_linear (generator : List Nat) (a b : Nat) :
    encode_word generator (a ^^^ b) = encode_word generator a ^^^ encode_word generator b ∧
    encode_word generator 0 = 0 :=
  ⟨row_xor_select_linear generator a b, row_xor_select_zero generator⟩

/-- Counterexample to the size clause of claim C8: with generator `[1]`
(whose single row is a code word) and parity check `[0]` over `n = 2`, the
constructor collects all four words, not `2 ^ k = 2`. -/
theorem C8_counterexample_size :
    (∀ row ∈ ([1] : List Nat), is_code_word [0] 2 row = true) ∧
    (code_words [0] 2).length ≠ 2 ^ List.length ([1] : List Nat) := by
  decide

/-- Claim C8 (amended): the codebook contains the zero word, is closed under
XOR, and is enumerated in strictly increasing numeric order; the size-`2 ^ k`
clause fails when the parity-check matrix does not have full rank `n - k`
(see the counterexample). -/
theorem C8_codebook_invariants (H : List Nat) (n : Nat) :
    0 ∈ code_words H n ∧
    (∀ a ∈ code_words H n, ∀ b ∈ code_words H n, a ^^^ b ∈ code_words H n) ∧
    List.Sorted (fun a b => a < b) (code_words H n) := by
  refine ⟨zero_mem_code_words H n, ?_, code_words_sorted H n⟩
  intro a ha b hb
  rcases mem_code_words.mp ha with ⟨ha1, ha2⟩
  rcases mem_code_words.mp hb with ⟨hb1, hb2⟩
  exact mem_code_words.mpr ⟨xor_lt_two_pow_of_lt ha1 hb1, is_code_word_xor ha2 hb2⟩

/-- Witness for C8 on the repetition code `H = [3, 5]`, `n = 3`. -/
theorem C8_codebook_invariants_witness :
    0 ∈ code_words [3, 5] 3 ∧ 7 ^^^ 7 ∈ code_words [3, 5] 3 :=
  ⟨(C8_codebook_invariants [3, 5] 3).1,
   (C8_codebook_invariants [3, 5] 3).2.1 7 (by decide) 7 (by decide)⟩

/-- Claim C9: the descending burst-length loop of `decode_word`
(`cyclic_codes_2.h`), modelled literally with its unsigned decrement modulo
`2 ^ 32` and the `desired_burst_length != UINT_MAX` guard, always exits after
exactly `max_burst_length + 1 = 4` iterations (fuel for 5 guard checks
suffices and produces the four inner scans at desired lengths 3, 2, 1, 0,
while fuel for only 4 guard checks does not reach the exit). -/
theorem C9_burst_search_terminates (bursts syndromes : List Nat) (st : BSearchState) :
    outer_loop bursts syndromes (max_burst_length + 2) max_burst_length st =
      some (inner_scan bursts syndromes 0 (inner_scan bursts syndromes 1
        (inner_scan bursts syndromes 2 (inner_scan bursts syndromes 3 st)))) ∧
    outer_loop bursts syndromes (max_burst_length + 1) max_burst_length st = none :=
  ⟨outer_loop_unfold bursts syndromes st, outer_loop_fuel_short bursts syndromes st⟩

/-- Claim C5: when no syndrome of the received word has burst length at most
`max_burst_length`, `decode_word` of `cyclic_codes_2.h` returns the received
word unchanged with the failure flag (the embedding is total, so no exception
can be raised). -/
theorem C5_failure_atomicity (H : List Nat) (n r : Nat)
    (h : ∀ s ∈ get_syndromes H n r, ¬ get_burst_length s H.length ≤ max_burst_length) :
    decode_word_B H n r = (r, false) := by
  have hnone : ∀ d : Nat, d ≤ 3 →
      ((get_syndromes H n r).map (fun s => get_burst_length s H.length)).findIdx?
        (fun b => b == d) = none := by
    intro d hd
    rw [List.findIdx?_eq_none_iff]
    intro x hx
    rcases List.mem_map.mp hx with ⟨s, hs, rfl⟩
    have hgt := h s hs
    rw [show max_burst_length = 3 from rfl] at hgt
    simp only [beq_eq_false_iff_ne]
    omega
  rw [decode_word_B_eq, bscan_eq, hnone 3 (by omega), hnone 2 (by omega), hnone 1 (by omega),
    hnone 0 (by omega)]
  rfl

/-- Witness for C5: over `H` the 5x5 identity with `n = 5`, the received word
`0b10101` has every syndrome of burst length 4 and decoding fails atomically. -/
theorem C5_failure_atomicity_witness :
    (∀ s ∈ get_syndromes [1, 2, 4, 8, 16] 5 21,
      ¬ get_burst_length s (List.length ([1, 2, 4, 8, 16] : List Nat)) ≤ max_burst_length) ∧
    decode_word_B [1, 2, 4, 8, 16] 5 21 = (21, false) :=
  ⟨by decide, C5_failure_atomicity [1, 2, 4, 8, 16] 5 21 (by decide)⟩

/-- Counterexample to claim C4 for `cyclic_codes_2.h`: with `H = [3]`,
`n = 3` and received word `1`, the list built by `get_syndromes` is NOT the
list of syndromes of the left rotations by `i` — the source pushes the
cyclic shifts in reverse order after index 0. -/
theorem C4_counterexample :
    get_syndromes [3] 3 1 ≠
      (List.range 3).map (fun i => row_xor_select (get_transpose [3] 3) (rotl_spec 3 1 i)) := by
  decide

/-- Claim C4 (amended): the syndrome list built inline by `decode_word` of
`cyclic_codes.h` is indexed by left-rotation amount `i` as claimed; the list
built by `get_syndromes` of `cyclic_codes_2.h` instead has, at index `i`, the
syndrome of the received word rotated left by `(n - i) % n` positions
(equivalently rotated right by `i`). -/
theorem C4_syndrome_list_order (H : List Nat) (n r : Nat) (hn : 1 ≤ n) :
    ((get_cyclic_shifts r n).map (fun s => row_xor_select (get_transpose H n) s) =
      (List.range n).map (fun i => row_xor_select (get_transpose H n) (rotl_spec n r i))) ∧
    (get_syndromes H n r =
      (List.range n).map (fun i =>
        row_xor_select (get_transpose H n) (rotl_spec n r ((n - i) % n)))) :=
  ⟨syndromesA_eq hn r, get_syndromes_eq hn r⟩

/-- Witness for C4 at `H = [3]`, `n = 3`, `r = 1`. -/
theorem C4_syndrome_list_order_witness :
    1 ≤ 3 ∧
    (((get_cyclic_shifts 1 3).map (fun s => row_xor_select (get_transpose [3] 3) s) =
      (List.range 3).map (fun i => row_xor_select (get_transpose [3] 3) (rotl_spec 3 1 i))) ∧
    (get_syndromes [3] 3 1 =
      (List.range 3).map (fun i =>
        row_xor_select (get_transpose [3] 3) (rotl_spec 3 1 ((3 - i) % 3))))) :=
  ⟨by omega, C4_syndrome_list_order [3] 3 1 (by omega)⟩

/-- Claim C3: `decode_word` of `cyclic_codes.h` scans the syndromes of the
`n` left rotations of the received word in shift order, accepts the first of
Hamming weight at most `(min_distance - 1) / 2`, XORs in that syndrome
left-shifted by `n - (n - k)` bits and cyclically relocated by
`(n - i) % n` positions, and otherwise falls back to nearest-neighbor
decoding. -/
theorem C3_strategy_A_policy (H : List Nat) (n r : Nat) (hn : 1 ≤ n) :
    decode_word_A H n r =
      match ((List.range n).map (fun i =>
          row_xor_select (get_transpose H n) (rotl_spec n r i))).findIdx?
        (fun s => decide (weight n s ≤ (min_distance H n - 1) / 2)) with
      | none => nearest_neighbor (code_words H n) n r
      | some i =>
        r ^^^ rotl_spec n
          (((List.range n).map (fun i2 =>
            row_xor_select (get_transpose H n) (rotl_spec n r i2))).getD i 0 <<<
            (n - H.length)) ((n - i) % n) := by
  rw [decode_word_A_eq, syndromesA_eq hn r]
  have hpred : (fun s => decide (hamming_distance n 0 s ≤ (min_distance H n - 1) / 2)) =
      (fun s => decide (weight n s ≤ (min_distance H n - 1) / 2)) := by
    funext s
    rw [hamming_distance_zero_right]
  rw [hpred]
  rcases hidx : ((List.range n).map (fun i =>
      row_xor_select (get_transpose H n) (rotl_spec n r i))).findIdx?
        (fun s => decide (weight n s ≤ (min_distance H n - 1) / 2)) with _ | i
  · rfl
  · show r ^^^ word_of_places _ = r ^^^ rotl_spec n _ ((n - i) % n)
    congr 1
    rw [← rotl_spec_mod]
    exact (rotl_spec_eq_word n _ (n - i)).symm

/-- Witness for C3 at the repetition code `H = [3, 5]`, `n = 3`, received
word `3`. -/
theorem C3_strategy_A_policy_witness :
    1 ≤ 3 ∧
    (decode_word_A [3, 5] 3 3 =
      match ((List.range 3).map (fun i =>
          row_xor_select (get_transpose [3, 5] 3) (rotl_spec 3 3 i))).findIdx?
        (fun s => decide (weight 3 s ≤ (min_distance [3, 5] 3 - 1) / 2)) with
      | none => nearest_neighbor (code_words [3, 5] 3) 3 3
      | some i =>
        3 ^^^ rotl_spec 3
          (((List.range 3).map (fun i2 =>
            row_xor_select (get_transpose [3, 5] 3) (rotl_spec 3 3 i2))).getD i 0 <<<
            (3 - (List.length ([3, 5] : List Nat)))) ((3 - i) % 3)) :=
  ⟨by omega, C3_strategy_A_policy [3, 5] 3 3 (by omega)⟩

/-- Counterexample to claim C1: with generator `[3]` and parity check `[3]`
over `n = 4`, the single generator row is a code word, yet Strategy B turns
the encoded message `1` (the code word `3`) into `2` — the burst search
prefers a length-1 burst syndrome of a nonzero rotation over the zero
syndrome of the word itself, because the code is not closed under rotation. -/
theorem C1_counterexample :
    is_code_word [3] 4 (encode_word [3] 1) = true ∧
    (decode_word_B [3] 4 (encode_word [3] 1)).1 ≠ encode_word [3] 1 := by
  decide

/-- Claim C1 (amended): Strategy A round-trips every message whose encoding
is a code word; Strategy B additionally needs every cyclic rotation of the
encoded word to be a code word (as in a genuinely cyclic code) — with only
"G's rows are code words" it can alter the code word (see the
counterexample). -/
theorem C1_round_trip (g H : List Nat) (n m : Nat) (hn : 1 ≤ n)
    (hA : is_code_word H n (encode_word g m) = true) :
    decode_word_A H n (encode_word g m) = encode_word g m ∧
    ((∀ i, i < n → is_code_word H n (rotl_spec n (encode_word g m) i) = true) →
      decode_word_B H n (encode_word g m) = (encode_word g m, true)) := by
  constructor
  · exact decode_A_zero_syndrome (syndrome_zero_of_code_word hA)
  · intro hB
    apply decode_B_all_zero hn
    intro s hs
    rw [get_syndromes_eq hn] at hs
    rcases List.mem_map.mp hs with ⟨i, hi, rfl⟩
    have hin : i < n := List.mem_range.mp hi
    exact syndrome_zero_of_code_word (hB ((n - i) % n) (Nat.mod_lt _ (by omega)))

/-- Witness for C1 on the repetition code: `G = [7]`, `H = [3, 5]`, `n = 3`,
message `1`. -/
theorem C1_round_trip_witness :
    (1 ≤ 3 ∧ is_code_word [3, 5] 3 (encode_word [7] 1) = true) ∧
    (decode_word_A [3, 5] 3 (encode_word [7] 1) = encode_word [7] 1 ∧
     decode_word_B [3, 5] 3 (encode_word [7] 1) = (encode_word [7] 1, true)) :=
  ⟨⟨by omega, by decide⟩,
   ⟨(C1_round_trip [7] [3, 5] 3 1 (by omega) (by decide)).1,
    (C1_round_trip [7] [3, 5] 3 1 (by omega) (by decide)).2 (by decide)⟩⟩

/-- Claim C6: the nearest-neighbor decoder returns the codebook member
minimizing the Hamming distance to the received word, ties broken by the
first occurrence in the (ascending) codebook enumeration; in particular its
output is at distance no greater than any code word, and the function is
total (it always succeeds). -/
theorem C6_nearest_neighbor_optimal (H : List Nat) (n r : Nat) (hn : n ≤ 32) :
    ∃ j, j < (code_words H n).length ∧
      nearest_neighbor (code_words H n) n r = (code_words H n).getD j 0 ∧
      (∀ k, k < (code_words H n).length →
        hamming_distance n r ((code_words H n).getD j 0) ≤
          hamming_distance n r ((code_words H n).getD k 0)) ∧
      (∀ k, k < j →
        hamming_distance n r ((code_words H n).getD j 0) <
          hamming_distance n r ((code_words H n).getD k 0)) := by
  obtain ⟨c0, rest, hcons⟩ :=
    List.exists_cons_of_ne_nil (List.ne_nil_of_mem (zero_mem_code_words H n))
  rw [hcons]
  obtain ⟨j, hj, hres, hmin, hfirst⟩ :=
    gfold_first (fun x => hamming_distance n 0 x) (rest.map (fun c => r ^^^ c)) (r ^^^ c0)
  have hcoset : (r ^^^ c0) :: rest.map (fun c => r ^^^ c) =
      (c0 :: rest).map (fun c => r ^^^ c) := rfl
  have hlen : ((r ^^^ c0) :: rest.map (fun c => r ^^^ c)).length = (c0 :: rest).length := by
    simp
  have hgd : ∀ k, k < (c0 :: rest).length →
      ((r ^^^ c0) :: rest.map (fun c => r ^^^ c)).getD k 0 =
        r ^^^ (c0 :: rest).getD k 0 := by
    intro k hk
    rw [hcoset]
    exact getD_map_lt hk
  have hnn : nearest_neighbor (c0 :: rest) n r =
      r ^^^ (rest.map (fun c => r ^^^ c)).foldl
        (fun b c => if hamming_distance n 0 c < hamming_distance n 0 b then c else b)
        (r ^^^ c0) := by
    unfold nearest_neighbor
    simp only [List.map_cons, List.headD_cons, List.foldl_cons]
    have hlt : hamming_distance n 0 (r ^^^ c0) < UINT_MAX := by
      have h1 := hamming_distance_le n (r ^^^ c0)
      show _ < 4294967295
      omega
    rw [if_pos hlt]
    rw [pair_fold (fun x => hamming_distance n 0 x) (rest.map (fun c => r ^^^ c)) (r ^^^ c0)]
  have hjlen : j < (c0 :: rest).length := by
    rw [← hlen]
    exact hj
  refine ⟨j, hjlen, ?_, ?_, ?_⟩
  · rw [hnn, hres, hgd j hjlen, Nat.xor_cancel_left]
  · intro k hk
    have h1 := hmin k (by rw [hlen]; exact hk)
    rw [hgd j hjlen, hgd k hk] at h1
    rw [hamming_distance_zero_xor, hamming_distance_zero_xor] at h1
    exact h1
  · intro k hk
    have h1 := hfirst k hk
    rw [hgd j hjlen, hgd k (by omega)] at h1
    rw [hamming_distance_zero_xor, hamming_distance_zero_xor] at h1
    exact h1

/-- Witness for C6 on the repetition code with received word `0b011`: the
decoder returns `7`, the unique code word at distance 1. -/
theorem C6_nearest_neighbor_optimal_witness :
    3 ≤ 32 ∧
    ∃ j, j < (code_words [3, 5] 3).length ∧
      nearest_neighbor (code_words [3, 5] 3) 3 3 = (code_words [3, 5] 3).getD j 0 ∧
      (∀ k, k < (code_words [3, 5] 3).length →
        hamming_distance 3 3 ((code_words [3, 5] 3).getD j 0) ≤
          hamming_distance 3 3 ((code_words [3, 5] 3).getD k 0)) ∧
      (∀ k, k < j →
        hamming_distance 3 3 ((code_words [3, 5] 3).getD j 0) <
          hamming_distance 3 3 ((code_words [3, 5] 3).getD k 0)) :=
  ⟨by omega, C6_nearest_neighbor_optimal [3, 5] 3 3 (by omega)⟩

theorem wrap_eq_rotr_at_index (H : List Nat) (n r i : Nat) (hmn : H.length ≤ n)
    (hi : i < (get_syndromes H n r).length) :
    wrap_rotr n ((get_syndromes H n r).getD i 0 <<< (n - H.length)) (n - i) =
      rotr_spec n ((get_syndromes H n r).getD i 0 <<< (n - H.length)) (n - i) := by
  apply wrap_rotr_eq
  · apply shiftLeft_lt_two_pow _ hmn
    have hmem : (get_syndromes H n r).getD i 0 ∈ get_syndromes H n r := by
      rw [List.getD_eq_getElem?_getD, List.getElem?_eq_getElem hi]
      exact List.getElem_mem hi
    exact mem_get_syndromes_lt _ hmem
  · omega

theorem findIdx_lt_syndromes_length {H : List Nat} {n r d i : Nat}
    (h : ((get_syndromes H n r).map
      (fun s => get_burst_length s H.length)).findIdx? (fun b => b == d) = some i) :
    i < (get_syndromes H n r).length := by
  rcases List.findIdx?_eq_some_iff_getElem.mp h with ⟨hlt, _, _⟩
  rwa [List.length_map] at hlt

/-- Claim C2: on input `r`, `decode_word` of `cyclic_codes_2.h` scans desired
burst lengths from `max_burst_length = 3` down through 0, accepting within
each pass the lowest-index syndrome whose burst length equals the desired
length (so a larger burst length beats a smaller one, and the lowest shift
index wins among equals); on a hit at index `i` it returns the received word
XOR the matched syndrome left-shifted by `n - (n - k)` bits and cyclically
right-rotated by `n - i` positions, with success; otherwise failure. -/
theorem C2_strategy_B_policy (H : List Nat) (n r : Nat) (hmn : H.length ≤ n) :
    decode_word_B H n r =
      match ((List.range (max_burst_length + 1)).reverse).findSome?
          (fun d => (((get_syndromes H n r).map
            (fun s => get_burst_length s H.length)).findIdx? (fun b => b == d)).map
              (fun i => (d, i))) with
      | none => (r, false)
      | some di =>
        (r ^^^ rotr_spec n ((get_syndromes H n r).getD di.2 0 <<< (n - H.length))
          (n - di.2), true) := by
  rw [show (List.range (max_burst_length + 1)).reverse = [3, 2, 1, 0] from rfl]
  rw [decode_word_B_eq, bscan_eq]
  rcases h3 : ((get_syndromes H n r).map
      (fun s => get_burst_length s H.length)).findIdx? (fun b => b == 3) with _ | i3
  · rcases h2 : ((get_syndromes H n r).map
        (fun s => get_burst_length s H.length)).findIdx? (fun b => b == 2) with _ | i2
    · rcases h1 : ((get_syndromes H n r).map
          (fun s => get_burst_length s H.length)).findIdx? (fun b => b == 1) with _ | i1
      · rcases h0 : ((get_syndromes H n r).map
            (fun s => get_burst_length s H.length)).findIdx? (fun b => b == 0) with _ | i0
        · simp only [List.findSome?_cons, h3, h2, h1, h0, Option.map_none']
          rfl
        · simp only [List.findSome?_cons, h3, h2, h1, h0, Option.map_none', Option.map_some']
          rw [if_pos trivial]
          rw [wrap_eq_rotr_at_index H n r i0 hmn (findIdx_lt_syndromes_length h0)]
      · simp only [List.findSome?_cons, h3, h2, h1, Option.map_none', Option.map_some']
        rw [if_pos trivial]
        rw [wrap_eq_rotr_at_index H n r i1 hmn (findIdx_lt_syndromes_length h1)]
    · simp only [List.findSome?_cons, h3, h2, Option.map_none', Option.map_some']
      rw [if_pos trivial]
      rw [wrap_eq_rotr_at_index H n r i2 hmn (findIdx_lt_syndromes_length h2)]
  · simp only [List.findSome?_cons, h3, Option.map_some']
    rw [if_pos trivial]
    rw [wrap_eq_rotr_at_index H n r i3 hmn (findIdx_lt_syndromes_length h3)]

/-- Witness for C2 at `H = [3]`, `n = 4`, received word `3`: the search picks
the length-1 burst syndrome at shift index 1 and decodes to `2`. -/
theorem C2_strategy_B_policy_witness :
    List.length ([3] : List Nat) ≤ 4 ∧
    (decode_word_B [3] 4 3 =
      match ((List.range (max_burst_length + 1)).reverse).findSome?
          (fun d => (((get_syndromes [3] 4 3).map
            (fun s => get_burst_length s (List.length ([3] : List Nat)))).findIdx?
              (fun b => b == d)).map (fun i => (d, i))) with
      | none => (3, false)
      | some di =>
        (3 ^^^ rotr_spec 4 ((get_syndromes [3] 4 3).getD di.2 0 <<<
          (4 - List.length ([3] : List Nat))) (4 - di.2), true)) :=
  ⟨by decide, C2_strategy_B_policy [3] 4 3 (by decide)⟩

end CyclicCodes
